import Mathlib

/-!
Verification of the AudioWaterMarkKit core against its specification.

The repository ships the public FFI surface as C headers
(`src/include/awmkit.h` and the Swift-binding copy); the implementation
behind the header is not part of the sources under review.  Except for the
error-code enumeration, which the headers define outright, every operation
below is therefore modelled from the specification's own description of the
tag algebra, the two-wire-version message codec, the key-slot store and the
evidence recorder, and the claims are settled against those models.

Bytes are `Nat` values below 256, bit streams are `List Bool` with the most
significant bit first, and machine words carry explicit `% 2 ^ 32`
reductions where the 32-bit arithmetic of SHA-256 overflows.
-/

set_option maxRecDepth 100000

-- ===========================================================================
-- Error codes (from the AWMError enum in the headers)
-- ===========================================================================

/-- Status codes surfaced at the FFI boundary, one constructor per member of
the `AWMError` enum in `src/bindings/swift/Sources/CAWMKit/include/awmkit.h`
(lines 21-37); `src/include/awmkit.h` declares the prefix of this list up to
`noWatermarkFound` with the same values. -/
inductive AWMStatus where
  | success
  | invalidTag
  | invalidMessageLength
  | hmacMismatch
  | nullPointer
  | invalidUtf8
  | checksumMismatch
  | audiowmarkNotFound
  | audiowmarkExec
  | noWatermarkFound
  | keyAlreadyExists
  | invalidOutputFormat
  | admUnsupported
  | admPreserveFailed
  | admPcmFormatUnsupported
deriving DecidableEq, Repr

/-- Integer value of each status code, exactly as assigned by the
`AWMError` enum in the headers. -/
def awmStatusCode : AWMStatus → Int
  | .success => 0
  | .invalidTag => -1
  | .invalidMessageLength => -2
  | .hmacMismatch => -3
  | .nullPointer => -4
  | .invalidUtf8 => -5
  | .checksumMismatch => -6
  | .audiowmarkNotFound => -7
  | .audiowmarkExec => -8
  | .noWatermarkFound => -9
  | .keyAlreadyExists => -10
  | .invalidOutputFormat => -11
  | .admUnsupported => -12
  | .admPreserveFailed => -13
  | .admPcmFormatUnsupported => -14

-- ===========================================================================
-- Base32 alphabet and tag algebra
-- ===========================================================================

/-- Modelled from the spec: the RFC 4648 Base32 alphabet used by tags,
`ABCDEFGHIJKLMNOPQRSTUVWXYZ234567` (spec section 3); the pad character inside
tags is an underscore, not the RFC pad. -/
def alphabetList : List Char := "ABCDEFGHIJKLMNOPQRSTUVWXYZ234567".toList

/-- Position of a character in a list, returning the list's length when the
character is absent. -/
def charIndex (c : Char) : List Char → Nat
  | [] => 0
  | d :: rest => if d = c then 0 else charIndex c rest + 1

/-- Modelled from the spec: the 5-bit value of a tag character is its
alphabet position, with the underscore pad (absent from the alphabet)
treated as value 0 (spec section 4.1). -/
def tagCharValue (c : Char) : Nat := charIndex c alphabetList % 32

/-- Modelled from the spec: the alphabet character for a 5-bit value. -/
def alphaChar (v : Nat) : Char := alphabetList.getD (v % 32) 'A'

/-- Characters admissible inside a tag: the alphabet plus the pad. -/
def validTagChars : List Char := alphabetList ++ ['_']

/-- Whether a character may appear in a tag. -/
def tagCharOk (c : Char) : Bool := decide (c ∈ validTagChars)

/-- Modelled from the spec: the weighted checksum accumulator, summing
`(i + 1) * value_i` over the characters with `i` counted from the given
start index (spec section 4.1). -/
def wsum : Nat → List Char → Nat
  | _, [] => 0
  | i, c :: rest => (i + 1) * tagCharValue c + wsum (i + 1) rest

/-- Modelled from the spec: the checksum character over the first seven tag
characters is `alphabet[sum mod 32]` with `sum = Σ (i+1) * value_i`
(spec section 4.1). -/
def checksumChar (cs : List Char) : Char := alphaChar (wsum 0 cs)

/-- Modelled from the spec: identity normalization upper-cases the input and
maps a hyphen to the underscore pad (spec sections 3 and 4.1). -/
def normChar (c : Char) : Char :=
  if c.toUpper = '-' then '_' else c.toUpper

/-- Normalization of a whole identity string. -/
def normalizeIdentity (s : String) : String := String.mk (s.toList.map normChar)

/-- Modelled from the spec: `tag_verify` accepts exactly the strings of
length 8 whose characters lie in the alphabet plus pad and whose last
character is the checksum of the first seven (spec section 4.1). -/
def awm_tag_verify (t : String) : Bool :=
  let cs := t.toList
  decide (cs.length = 8) && cs.all tagCharOk &&
    decide (cs.getD 7 'A' = checksumChar (cs.take 7))

/-- Modelled from the spec: `tag_new` normalizes the identity, rejects an
empty, over-long or out-of-alphabet result, right-pads with underscores to
seven characters and appends the checksum (spec section 4.1). -/
def awm_tag_new (identity : String) : Except AWMStatus String :=
  let cs := (normalizeIdentity identity).toList
  if cs.length = 0 ∨ 7 < cs.length ∨ ¬ (cs.all tagCharOk = true) then
    .error .invalidTag
  else
    let padded := cs ++ List.replicate (7 - cs.length) '_'
    .ok (String.mk (padded ++ [checksumChar padded]))

/-- Drop the trailing underscore padding of a character list. -/
def stripTrailingPad (cs : List Char) : List Char :=
  (List.dropWhile (fun c => c = '_') cs.reverse).reverse

/-- Modelled from the spec: `tag_identity` verifies the tag and strips the
checksum character and the trailing underscore padding (spec section 4.1). -/
def awm_tag_identity (t : String) : Except AWMStatus String :=
  if awm_tag_verify t then
    .ok (String.mk (stripTrailingPad (t.toList.take 7)))
  else
    .error .invalidTag

-- ===========================================================================
-- Bit streams
-- ===========================================================================

/-- The `w`-bit big-endian representation of a natural number, most
significant bit first. -/
def natToBits : Nat → Nat → List Bool
  | 0, _ => []
  | w + 1, n => decide (n / 2 ^ w % 2 = 1) :: natToBits w n

/-- Read a most-significant-bit-first bit stream as a natural number. -/
def bitsToNat (l : List Bool) : Nat :=
  l.foldl (fun acc b => 2 * acc + (if b then 1 else 0)) 0

/-- Group a bit stream into bytes, eight bits at a time, most significant
bit first; a trailing group shorter than eight bits is dropped. -/
def bitsToBytes : List Bool → List Nat
  | b0 :: b1 :: b2 :: b3 :: b4 :: b5 :: b6 :: b7 :: rest =>
      bitsToNat [b0, b1, b2, b3, b4, b5, b6, b7] :: bitsToBytes rest
  | _ => []

/-- The eight bits of a byte, most significant first. -/
def byteBits (n : Nat) : List Bool := natToBits 8 n

/-- The bit stream of a byte string. -/
def bytesToBits (l : List Nat) : List Bool := (l.map byteBits).flatten

/-- Split a bit stream into 5-bit values, most significant bit first; a
trailing group shorter than five bits is dropped. -/
def unpack5 : List Bool → List Nat
  | b0 :: b1 :: b2 :: b3 :: b4 :: rest =>
      bitsToNat [b0, b1, b2, b3, b4] :: unpack5 rest
  | _ => []

/-- Big-endian 4-byte rendering of a 32-bit value. -/
def be4 (n : Nat) : List Nat :=
  [n / 2 ^ 24 % 256, n / 2 ^ 16 % 256, n / 2 ^ 8 % 256, n % 256]

/-- Big-endian 8-byte rendering of a 64-bit value. -/
def be8 (n : Nat) : List Nat :=
  [n / 2 ^ 56 % 256, n / 2 ^ 48 % 256, n / 2 ^ 40 % 256, n / 2 ^ 32 % 256,
   n / 2 ^ 24 % 256, n / 2 ^ 16 % 256, n / 2 ^ 8 % 256, n % 256]

/-- Read a big-endian byte string as a natural number. -/
def bytesToNatBE (l : List Nat) : Nat := l.foldl (fun acc b => 256 * acc + b) 0

-- ===========================================================================
-- SHA-256 and HMAC-SHA256 (FIPS 180-4 / RFC 2104)
-- ===========================================================================

/-- Modelled from the spec: SHA-256 and HMAC-SHA256 are the standard
primitives the core uses as black boxes (spec section 1); the implementation
is missing from the sources under review, so the FIPS 180-4 function is
reproduced here over byte lists.  This is the working state of one
compression, eight 32-bit words. -/
structure Sha256State where
  a : Nat
  b : Nat
  c : Nat
  d : Nat
  e : Nat
  f : Nat
  g : Nat
  h : Nat
deriving DecidableEq, Repr

/-- Right rotation of a 32-bit word. -/
def rotr32 (n r : Nat) : Nat := (n / 2 ^ r + n % 2 ^ r * 2 ^ (32 - r)) % 2 ^ 32

/-- The SHA-256 round constants. -/
def sha256K : List Nat :=
  [1116352408, 1899447441, 3049323471, 3921009573,
   961987163, 1508970993, 2453635748, 2870763221,
   3624381080, 310598401, 607225278, 1426881987,
   1925078388, 2162078206, 2614888103, 3248222580,
   3835390401, 4022224774, 264347078, 604807628,
   770255983, 1249150122, 1555081692, 1996064986,
   2554220882, 2821834349, 2952996808, 3210313671,
   3336571891, 3584528711, 113926993, 338241895,
   666307205, 773529912, 1294757372, 1396182291,
   1695183700, 1986661051, 2177026350, 2456956037,
   2730485921, 2820302411, 3259730800, 3345764771,
   3516065817, 3600352804, 4094571909, 275423344,
   430227734, 506948616, 659060556, 883997877,
   958139571, 1322822218, 1537002063, 1747873779,
   1955562222, 2024104815, 2227730452, 2361852424,
   2428436474, 2756734187, 3204031479, 3329325298]

/-- The SHA-256 initial hash value. -/
def sha256H0 : Sha256State :=
  ⟨1779033703, 3144134277, 1013904242, 2773480762,
   1359893119, 2600822924, 528734635, 1541459225⟩

/-- Group a byte string into big-endian 32-bit words. -/
def bytesToWords : List Nat → List Nat
  | b0 :: b1 :: b2 :: b3 :: rest =>
      (b0 * 2 ^ 24 + b1 * 2 ^ 16 + b2 * 2 ^ 8 + b3) :: bytesToWords rest
  | _ => []

/-- The message-schedule word added at each extension step. -/
def scheduleWord (ws : List Nat) : Nat :=
  let n := ws.length
  let s0w := ws.getD (n - 15) 0
  let s1w := ws.getD (n - 2) 0
  let s0 := rotr32 s0w 7 ^^^ rotr32 s0w 18 ^^^ s0w / 2 ^ 3
  let s1 := rotr32 s1w 17 ^^^ rotr32 s1w 19 ^^^ s1w / 2 ^ 10
  (s1 + ws.getD (n - 7) 0 + s0 + ws.getD (n - 16) 0) % 2 ^ 32

/-- Extend the 16 block words to the 64-word message schedule. -/
def extendSchedule : List Nat → Nat → List Nat
  | ws, 0 => ws
  | ws, k + 1 => extendSchedule (ws ++ [scheduleWord ws]) k

/-- One SHA-256 round over the working state. -/
def sha256Round (st : Sha256State) (w k : Nat) : Sha256State :=
  let s1 := rotr32 st.e 6 ^^^ rotr32 st.e 11 ^^^ rotr32 st.e 25
  let ch := st.e &&& st.f ^^^ ((st.e ^^^ 0xffffffff) &&& st.g)
  let t1 := (st.h + s1 + ch + k + w) % 2 ^ 32
  let s0 := rotr32 st.a 2 ^^^ rotr32 st.a 13 ^^^ rotr32 st.a 22
  let maj := st.a &&& st.b ^^^ st.a &&& st.c ^^^ st.b &&& st.c
  let t2 := (s0 + maj) % 2 ^ 32
  ⟨(t1 + t2) % 2 ^ 32, st.a, st.b, st.c, (st.d + t1) % 2 ^ 32, st.e, st.f, st.g⟩

/-- One SHA-256 compression of a 64-byte block into the chaining state. -/
def sha256Compress (st : Sha256State) (block : List Nat) : Sha256State :=
  let ws := extendSchedule (bytesToWords block) 48
  let t := (ws.zip sha256K).foldl (fun s p => sha256Round s p.1 p.2) st
  ⟨(st.a + t.a) % 2 ^ 32, (st.b + t.b) % 2 ^ 32, (st.c + t.c) % 2 ^ 32,
   (st.d + t.d) % 2 ^ 32, (st.e + t.e) % 2 ^ 32, (st.f + t.f) % 2 ^ 32,
   (st.g + t.g) % 2 ^ 32, (st.h + t.h) % 2 ^ 32⟩

/-- The SHA-256 padding: a 0x80 byte, zeros to 56 mod 64, and the bit length
as a big-endian 64-bit value. -/
def sha256Pad (m : List Nat) : List Nat :=
  m ++ [0x80] ++ List.replicate ((64 - (m.length + 9) % 64) % 64) 0 ++
    be8 (8 * m.length)

/-- Fold the compression over consecutive 64-byte blocks; the fuel bounds
the recursion and exceeds the block count whenever it is at least the byte
length. -/
def sha256Blocks : Sha256State → List Nat → Nat → Sha256State
  | st, _, 0 => st
  | st, l, fuel + 1 =>
    match l with
    | [] => st
    | _ :: _ => sha256Blocks (sha256Compress st (l.take 64)) (l.drop 64) fuel

/-- Big-endian bytes of the final hash state. -/
def stateBytes (st : Sha256State) : List Nat :=
  be4 st.a ++ be4 st.b ++ be4 st.c ++ be4 st.d ++
    be4 st.e ++ be4 st.f ++ be4 st.g ++ be4 st.h

/-- SHA-256 of a byte string. -/
def sha256 (m : List Nat) : List Nat :=
  let p := sha256Pad m
  stateBytes (sha256Blocks sha256H0 p p.length)

/-- HMAC-SHA256 with a 64-byte block size: hash an over-long key, zero-pad,
and run the nested inner/outer hashes with the 0x36/0x5c pads. -/
def hmacSha256 (key msg : List Nat) : List Nat :=
  let k0 := if 64 < key.length then sha256 key else key
  let kp := k0 ++ List.replicate (64 - k0.length) 0
  sha256 ((kp.map (fun b => b ^^^ 0x5c)) ++
    sha256 ((kp.map (fun b => b ^^^ 0x36)) ++ msg))

/-- UTF-8 encoding of a character, by code-point range. -/
def utf8Char (c : Char) : List Nat :=
  let n := c.toNat
  if n < 0x80 then [n]
  else if n < 0x800 then [0xc0 + n / 64, 0x80 + n % 64]
  else if n < 0x10000 then [0xe0 + n / 4096, 0x80 + n / 64 % 64, 0x80 + n % 64]
  else [0xf0 + n / 262144, 0x80 + n / 4096 % 64, 0x80 + n / 64 % 64,
        0x80 + n % 64]

/-- UTF-8 encoding of a string as a byte list. -/
def utf8Encode (cs : List Char) : List Nat := (cs.map utf8Char).flatten

-- ===========================================================================
-- Message codec
-- ===========================================================================

/-- Decoded message record, mirroring the `AWMResult` struct of the header:
version, timestamp in seconds and in minutes, key slot, tag and identity. -/
structure AWMResult where
  version : Nat
  timestamp_utc : Nat
  timestamp_minutes : Nat
  key_slot : Nat
  tag : String
  identity : String
deriving DecidableEq, Repr

/-- The wire length of a message, `AWM_MESSAGE_LENGTH` in the header. -/
def AWM_MESSAGE_LENGTH : Nat := 16

/-- Modelled from the spec: the 40 tag bits, five bits per character in
order (spec section 4.2). -/
def tagBits (cs : List Char) : List Bool :=
  (cs.map (fun c => natToBits 5 (tagCharValue c))).flatten

/-- Modelled from the spec: the v1 wire message.  Byte 0 is the literal
version 1, bytes 1-4 the big-endian timestamp in minutes, bytes 5-9 the
packed tag bits, and bytes 10-15 the leading 6 bytes of HMAC-SHA256 over
the first 10 bytes (spec section 4.2). -/
def awmEncodeV1 (tag : String) (key : List Nat) (ts : Nat) : List Nat :=
  let payload := 1 :: be4 ts ++ bitsToBytes (tagBits tag.toList)
  payload ++ (hmacSha256 key payload).take 6

/-- Modelled from the spec: the 90 payload bits of a v2 message: 5 bits of
version 2, 5 bits of key slot, 32 bits of timestamp, 40 tag bits, and 8
zero bits filling the 90-bit payload the spec prescribes for the HMAC input
(spec section 4.2 fixes 128 - 38 = 90 payload bits while the listed fields
cover only 82, so the remaining 8 bits are zero). -/
def v2PayloadBits (tag : String) (slot ts : Nat) : List Bool :=
  natToBits 5 2 ++ natToBits 5 slot ++ natToBits 32 ts ++ tagBits tag.toList ++
    List.replicate 8 false

/-- Modelled from the spec: the HMAC input of a v2 message is its first 90
bits right-padded with zeros to 12 bytes (spec section 4.2). -/
def v2MacInput (payload : List Bool) : List Nat :=
  bitsToBytes (payload ++ List.replicate 6 false)

/-- Modelled from the spec: the v2 wire message is the 90 payload bits
followed by the leading 38 bits of HMAC-SHA256 over the padded payload,
packed into 16 bytes (spec section 4.2). -/
def awmEncodeV2 (tag : String) (key : List Nat) (slot ts : Nat) : List Nat :=
  let payload := v2PayloadBits tag slot ts
  let macBits := (bytesToBits (hmacSha256 key (v2MacInput payload))).take 38
  bitsToBytes (payload ++ macBits)

/-- Modelled from the spec: the encode contract with every input explicit.
It rejects a tag failing `tag_verify`, a version other than 1 or 2, version
1 with a non-zero slot, and a slot outside 0-31; the spec names no specific
code for the version and slot rejections, so the model reports a plain
`invalidTag` for them alongside the invalid-tag case (spec section 4.2). -/
def awm_message_encode_full (version : Nat) (tag : String) (key : List Nat)
    (slot ts : Nat) : Except AWMStatus (List Nat) :=
  if awm_tag_verify tag = false then .error .invalidTag
  else if version = 1 then
    if slot ≠ 0 then .error .invalidTag
    else .ok (awmEncodeV1 tag key ts)
  else if version = 2 then
    if 32 ≤ slot then .error .invalidTag
    else .ok (awmEncodeV2 tag key slot ts)
  else .error .invalidTag

/-- Modelled from the spec: `awm_message_encode_with_timestamp` of the
header, which carries no slot argument and therefore encodes slot 0. -/
def awm_message_encode_with_timestamp (version : Nat) (tag : String)
    (key : List Nat) (ts : Nat) : Except AWMStatus (List Nat) :=
  awm_message_encode_full version tag key 0 ts

/-- Modelled from the spec: `awm_message_encode_with_slot` of the header;
the wall-clock timestamp the C function reads is the explicit `now`
argument of the model. -/
def awm_message_encode_with_slot (version : Nat) (tag : String)
    (key : List Nat) (slot now : Nat) : Except AWMStatus (List Nat) :=
  awm_message_encode_full version tag key slot now

/-- Modelled from the spec: decode auto-dispatches on the first byte, a
literal 1 selecting the v1 layout and anything else the v2 layout (spec
section 4.2); this is the tag unpacked from the version-selected field. -/
def unpackedTag (data : List Nat) : String :=
  if data.headD 0 = 1 then
    String.mk ((unpack5 (bytesToBits ((data.drop 5).take 5))).map alphaChar)
  else
    String.mk ((unpack5 (((bytesToBits data).drop 42).take 40)).map alphaChar)

/-- Modelled from the spec: whether the stored truncated HMAC equals the
recomputed one, over bytes 0-9 for v1 and over the padded first 90 bits for
v2 (spec section 4.2). -/
def macMatches (data key : List Nat) : Bool :=
  if data.headD 0 = 1 then
    decide (data.drop 10 = (hmacSha256 key (data.take 10)).take 6)
  else
    decide ((bytesToBits data).drop 90 =
      (bytesToBits (hmacSha256 key
        (bitsToBytes ((bytesToBits data).take 90 ++ List.replicate 6 false)))).take 38)

/-- Modelled from the spec: the record decode returns once the checks have
passed, with the fields unpacked by the version selected on the first byte
and the identity stripped from the tag (spec section 4.2). -/
def decodedRecord (data : List Nat) : AWMResult :=
  let tag := unpackedTag data
  let ident := String.mk (stripTrailingPad (tag.toList.take 7))
  if data.headD 0 = 1 then
    let ts := bytesToNatBE ((data.drop 1).take 4)
    ⟨1, ts * 60, ts, 0, tag, ident⟩
  else
    let bits := bytesToBits data
    let ts := bitsToNat ((bits.drop 10).take 32)
    ⟨bitsToNat (bits.take 5), ts * 60, ts, bitsToNat ((bits.drop 5).take 5),
      tag, ident⟩

/-- Modelled from the spec: `awm_message_decode` checks the 16-byte length,
then the unpacked tag, then the recomputed HMAC, in exactly that order, and
otherwise returns the decoded record (spec section 4.2, error ordering). -/
def awm_message_decode (data key : List Nat) : Except AWMStatus AWMResult :=
  if data.length ≠ 16 then .error .invalidMessageLength
  else if awm_tag_verify (unpackedTag data) = false then .error .invalidTag
  else if macMatches data key = false then .error .hmacMismatch
  else .ok (decodedRecord data)

-- ===========================================================================
-- Tag suggestion
-- ===========================================================================

/-- Modelled from the spec: `tag_suggest` hashes the UTF-8 username with
SHA-256, Base32-encodes the first 5 digest bytes into 8 characters, and
overwrites the final character with the checksum of the first seven (spec
section 4.1). -/
def awm_tag_suggest (username : String) : String :=
  let digest := sha256 (utf8Encode username.toList)
  let chars := (unpack5 (bytesToBits (digest.take 5))).map alphaChar
  String.mk (chars.take 7 ++ [checksumChar (chars.take 7)])

-- ===========================================================================
-- Key store
-- ===========================================================================

/-- Modelled from the spec: the key store is a 32-entry slot table, each
slot holding at most one 32-byte key, plus the active-slot index (spec
section 4.3).  Only the fields the delete-fallback behaviour touches are
modelled. -/
structure KeyStore where
  keys : List (Option (List Nat))
  active : Nat
deriving DecidableEq, Repr

/-- Whether a slot of the table holds a key. -/
def slotHasKey (keys : List (Option (List Nat))) (i : Nat) : Bool :=
  (keys.getD i none).isSome

/-- Lowest index at or above `i`, different from `avoid`, whose slot holds a
key; 0 when no such slot exists. -/
def lowestFrom (keys : List (Option (List Nat))) (avoid i : Nat) : Nat :=
  match keys with
  | [] => 0
  | k :: rest => if i ≠ avoid ∧ k.isSome then i else lowestFrom rest avoid (i + 1)

/-- Modelled from the spec: `awm_key_delete_slot` clears the slot; when the
deleted slot was active, the new active slot is the lowest index different
from the deleted one whose slot has a key, or 0 when none exists; the
post-delete active index is returned to the caller (spec section 4.3,
active-slot fallback). -/
def awm_key_delete_slot (st : KeyStore) (slot : Nat) : KeyStore × Nat :=
  let keys := st.keys.set slot none
  let active :=
    if st.active = slot then lowestFrom keys slot 0 else st.active
  (⟨keys, active⟩, active)

-- ===========================================================================
-- Evidence recording
-- ===========================================================================

/-- Modelled from the spec: one evidence row, with the fields the recording
entry points persist (spec section 4.4). -/
structure EvidenceRecord where
  file_path : String
  raw_message : List Nat
  identity : String
  key_slot : Nat
deriving DecidableEq, Repr

/-- Modelled from the spec: `awm_evidence_record_file` decodes and
authenticates the raw message under the supplied key and appends one
evidence row on success, surfacing the decode error otherwise (spec
section 4.4). -/
def awm_evidence_record_file (store : List EvidenceRecord) (path : String)
    (msg key : List Nat) : List EvidenceRecord × AWMStatus :=
  match awm_message_decode msg key with
  | .ok r => (store ++ [⟨path, msg, r.identity, r.key_slot⟩], .success)
  | .error e => (store, e)

/-- Modelled from the spec: `awm_evidence_record_file_ex` takes the legacy
`is_forced_embed` flag, which the header documents as ignored and retained
only for ABI compatibility, and otherwise behaves as
`awm_evidence_record_file`. -/
def awm_evidence_record_file_ex (store : List EvidenceRecord) (path : String)
    (msg key : List Nat) (is_forced_embed : Bool) :
    List EvidenceRecord × AWMStatus :=
  awm_evidence_record_file store path msg key

-- ===========================================================================
-- Claim-side renderings used for refinement comparisons
-- ===========================================================================

/-- The v2 bit layout exactly as claim C3 words it: version, slot,
timestamp and tag fields followed immediately by the 38 HMAC bits, with no
further padding; compared below against the message the codec produces. -/
def claimedV2Bits (tag : String) (key : List Nat) (slot ts : Nat) : List Bool :=
  natToBits 5 2 ++ natToBits 5 slot ++ natToBits 32 ts ++ tagBits tag.toList ++
    (bytesToBits (hmacSha256 key (v2MacInput (v2PayloadBits tag slot ts)))).take 38

/-- The underscore-collapsing substitution decode applies to a tag: the pad
and the letter A share the 5-bit value 0, and unpacking renders value 0 as
the letter A. -/
def underscoreToA (c : Char) : Char := if c = '_' then 'A' else c

/-- Base32 rendering of a byte string, 5 bits per output character, as
claim C9 words the body of `tag_suggest`. -/
def base32Encode5 (bytes : List Nat) : List Char :=
  (unpack5 (bytesToBits bytes)).map alphaChar

/-- Decidable equality of fallible results, so concrete codec outcomes can
be settled by evaluation. -/
instance {ε α : Type} [DecidableEq ε] [DecidableEq α] :
    DecidableEq (Except ε α) := fun a b =>
  match a, b with
  | .error e1, .error e2 =>
    if h : e1 = e2 then .isTrue (by rw [h]) else .isFalse (by simp [h])
  | .error _, .ok _ => .isFalse (by simp)
  | .ok _, .error _ => .isFalse (by simp)
  | .ok s1, .ok s2 =>
    if h : s1 = s2 then .isTrue (by rw [h]) else .isFalse (by simp [h])

-- ===========================================================================
-- Theorems
-- ===========================================================================

/-- C8: every error surfaced at the FFI boundary is one of the fixed signed
integer codes, with exactly the values 0 Success through -14
AdmPcmFormatUnsupported assigned by the AWMError enum. -/
theorem awm_error_code_values :
    awmStatusCode .success = 0 ∧
    awmStatusCode .invalidTag = -1 ∧
    awmStatusCode .invalidMessageLength = -2 ∧
    awmStatusCode .hmacMismatch = -3 ∧
    awmStatusCode .nullPointer = -4 ∧
    awmStatusCode .invalidUtf8 = -5 ∧
    awmStatusCode .checksumMismatch = -6 ∧
    awmStatusCode .audiowmarkNotFound = -7 ∧
    awmStatusCode .audiowmarkExec = -8 ∧
    awmStatusCode .noWatermarkFound = -9 ∧
    awmStatusCode .keyAlreadyExists = -10 ∧
    awmStatusCode .invalidOutputFormat = -11 ∧
    awmStatusCode .admUnsupported = -12 ∧
    awmStatusCode .admPreserveFailed = -13 ∧
    awmStatusCode .admPcmFormatUnsupported = -14 ∧
    ∀ e : AWMStatus, -14 ≤ awmStatusCode e ∧ awmStatusCode e ≤ 0 := by
  refine ⟨rfl, rfl, rfl, rfl, rfl, rfl, rfl, rfl, rfl, rfl, rfl, rfl, rfl,
    rfl, rfl, ?_⟩
  intro e
  cases e <;> simp [awmStatusCode]

/-- C10: `awm_evidence_record_file_ex` behaves identically to
`awm_evidence_record_file` on the same remaining arguments for every value
of the legacy `is_forced_embed` flag; the flag has no effect on the status
returned or on the recorded evidence. -/
theorem awm_evidence_record_file_ex_eq
    (store : List EvidenceRecord) (path : String) (msg key : List Nat)
    (flag : Bool) :
    awm_evidence_record_file_ex store path msg key flag =
      awm_evidence_record_file store path msg key := rfl

/-- C2: decode reports its errors in a fixed precedence; a length other
than 16 yields `invalidMessageLength`, then a failing unpacked tag yields
`invalidTag`, then a mismatched recomputed HMAC yields `hmacMismatch`, and
each later error is reported only when every earlier check passed. -/
theorem awm_decode_error_precedence (data key : List Nat) :
    (data.length ≠ 16 →
      awm_message_decode data key = .error .invalidMessageLength) ∧
    (data.length = 16 → awm_tag_verify (unpackedTag data) = false →
      awm_message_decode data key = .error .invalidTag) ∧
    (data.length = 16 → awm_tag_verify (unpackedTag data) = true →
      macMatches data key = false →
      awm_message_decode data key = .error .hmacMismatch) ∧
    (data.length = 16 → awm_tag_verify (unpackedTag data) = true →
      macMatches data key = true →
      awm_message_decode data key = .ok (decodedRecord data)) := by
  refine ⟨fun h1 => ?_, fun h1 h2 => ?_, fun h1 h2 h3 => ?_,
    fun h1 h2 h3 => ?_⟩
  · simp [awm_message_decode, h1]
  · simp [awm_message_decode, h1, h2]
  · simp [awm_message_decode, h1, h2, h3]
  · simp [awm_message_decode, h1, h2, h3]

/-- Witness for C2 at concrete inputs: the empty input is rejected for its
length, an all-ones 16-byte input is rejected for its tag (all-7s tag,
wrong checksum), and an all-zero 16-byte input unpacks to the valid tag
AAAAAAAA and is rejected for its recomputed HMAC. -/
theorem awm_decode_error_precedence_witness :
    awm_message_decode [] [] = .error .invalidMessageLength ∧
    awm_message_decode (List.replicate 16 255) [] = .error .invalidTag ∧
    awm_message_decode (List.replicate 16 0) [] = .error .hmacMismatch := by
  refine ⟨(awm_decode_error_precedence [] []).1 (by decide),
    (awm_decode_error_precedence (List.replicate 16 255) []).2.1 (by decide)
      (by decide),
    (awm_decode_error_precedence (List.replicate 16 0) []).2.2.1 (by decide)
      (by decide) (by decide)⟩

/-- C6: encode fails with an error rather than producing a message whenever
the supplied tag fails `tag_verify`, whenever the version is not 1 or 2,
and whenever version 1 is requested together with a non-zero key slot. -/
theorem awm_encode_rejections (version : Nat) (tag : String) (key : List Nat)
    (slot ts : Nat) :
    (awm_tag_verify tag = false →
      ∃ e, awm_message_encode_full version tag key slot ts = .error e) ∧
    (version ≠ 1 → version ≠ 2 →
      ∃ e, awm_message_encode_full version tag key slot ts = .error e) ∧
    (version = 1 → slot ≠ 0 →
      ∃ e, awm_message_encode_full version tag key slot ts = .error e) := by
  refine ⟨fun h => ⟨.invalidTag, ?_⟩, fun h1 h2 => ⟨.invalidTag, ?_⟩,
    fun h1 h2 => ⟨.invalidTag, ?_⟩⟩ <;>
    · unfold awm_message_encode_full
      split <;> simp_all

/-- Witness for C6 at concrete inputs: an invalid tag, an unsupported
version 3, and version 1 with slot 1 are each rejected. -/
theorem awm_encode_rejections_witness :
    (∃ e, awm_message_encode_full 2 "BADTAGXX" [] 0 0 = .error e) ∧
    (∃ e, awm_message_encode_full 3 "SAKUZY_N" [] 0 0 = .error e) ∧
    (∃ e, awm_message_encode_full 1 "SAKUZY_N" [] 1 0 = .error e) :=
  ⟨(awm_encode_rejections 2 "BADTAGXX" [] 0 0).1 (by decide),
   (awm_encode_rejections 3 "SAKUZY_N" [] 0 0).2.1 (by decide) (by decide),
   (awm_encode_rejections 1 "SAKUZY_N" [] 1 0).2.2 (by decide) (by decide)⟩

-- ===========================================================================
-- Bit-stream lemmas
-- ===========================================================================

/-- A `w`-bit rendering has `w` bits. -/
theorem natToBits_length (w : Nat) : ∀ n, (natToBits w n).length = w := by
  induction w with
  | zero => intro n; rfl
  | succ w ih => intro n; simp [natToBits, ih]

/-- Folding the bit reader from an arbitrary accumulator shifts the
accumulator past the stream. -/
theorem bitsToNat_go (l : List Bool) : ∀ a : Nat,
    l.foldl (fun acc b => 2 * acc + (if b then 1 else 0)) a =
      a * 2 ^ l.length + bitsToNat l := by
  induction l with
  | nil => intro a; simp [bitsToNat]
  | cons b l ih =>
    intro a
    simp only [List.foldl_cons, List.length_cons, bitsToNat] at *
    rw [ih, ih (2 * 0 + if b then 1 else 0)]
    ring

/-- Reading back a `w`-bit rendering recovers the value modulo `2 ^ w`. -/
theorem bitsToNat_natToBits (w : Nat) : ∀ n, bitsToNat (natToBits w n) = n % 2 ^ w := by
  induction w with
  | zero => intro n; simp [natToBits, bitsToNat, Nat.mod_one]
  | succ w ih =>
    intro n
    simp only [natToBits, bitsToNat, List.foldl_cons]
    rw [bitsToNat_go, natToBits_length]
    have h2 : n % 2 ^ (w + 1) = n % 2 ^ w + 2 ^ w * (n / 2 ^ w % 2) := by
      rw [pow_succ]; exact Nat.mod_mul
    rw [ih n, h2]
    rcases Nat.mod_two_eq_zero_or_one (n / 2 ^ w) with h | h <;> simp [h] <;> ring

/-- The bit stream of a byte prepended to a byte string. -/
theorem bytesToBits_cons (b : Nat) (l : List Nat) :
    bytesToBits (b :: l) = byteBits b ++ bytesToBits l := by
  simp [bytesToBits]

/-- The bit stream of a concatenation is the concatenation of the bit
streams. -/
theorem bytesToBits_append (l1 l2 : List Nat) :
    bytesToBits (l1 ++ l2) = bytesToBits l1 ++ bytesToBits l2 := by
  simp [bytesToBits]

/-- A byte string of length `n` has `8 * n` bits. -/
theorem bytesToBits_length (l : List Nat) : (bytesToBits l).length = 8 * l.length := by
  induction l with
  | nil => rfl
  | cons b l ih =>
    simp only [bytesToBits_cons, List.length_append, List.length_cons, ih,
      byteBits, natToBits_length]
    omega

/-- Rendering the byte read from eight bits recovers those bits. -/
theorem byteBits_bitsToNat (b0 b1 b2 b3 b4 b5 b6 b7 : Bool) :
    byteBits (bitsToNat [b0, b1, b2, b3, b4, b5, b6, b7]) =
      [b0, b1, b2, b3, b4, b5, b6, b7] := by
  cases b0 <;> cases b1 <;> cases b2 <;> cases b3 <;> cases b4 <;> cases b5 <;>
    cases b6 <;> cases b7 <;> rfl

/-- Packing a bit stream of length `8 * k` into bytes and streaming it out
again is the identity, and the packed string has `k` bytes. -/
theorem bitsToBytes_roundtrip : ∀ (k : Nat) (l : List Bool), l.length = 8 * k →
    bytesToBits (bitsToBytes l) = l ∧ (bitsToBytes l).length = k := by
  intro k
  induction k with
  | zero =>
    intro l hl
    have : l = [] := List.length_eq_zero.mp (by omega)
    subst this
    exact ⟨rfl, rfl⟩
  | succ k ih =>
    intro l hl
    rcases l with _ | ⟨b0, _ | ⟨b1, _ | ⟨b2, _ | ⟨b3, _ | ⟨b4, _ | ⟨b5, _ |
      ⟨b6, _ | ⟨b7, rest⟩⟩⟩⟩⟩⟩⟩⟩ <;> simp only [List.length_cons, List.length_nil] at hl <;>
      try omega
    have hrest : rest.length = 8 * k := by omega
    obtain ⟨ih1, ih2⟩ := ih rest hrest
    constructor
    · show bytesToBits (bitsToNat [b0, b1, b2, b3, b4, b5, b6, b7] :: bitsToBytes rest) = _
      rw [bytesToBits_cons, byteBits_bitsToNat, ih1]
      rfl
    · show (bitsToNat [b0, b1, b2, b3, b4, b5, b6, b7] :: bitsToBytes rest).length = _
      simp [ih2]

/-- Splitting five bits off the front of a stream. -/
theorem unpack5_append5 (l rest : List Bool) (h : l.length = 5) :
    unpack5 (l ++ rest) = bitsToNat l :: unpack5 rest := by
  rcases l with _ | ⟨b0, _ | ⟨b1, _ | ⟨b2, _ | ⟨b3, _ | ⟨b4, tail⟩⟩⟩⟩⟩ <;>
    simp only [List.length_cons, List.length_nil] at h <;> try omega
  have : tail = [] := List.length_eq_zero.mp (by omega)
  subst this
  rfl

/-- A stream of `5 * k` bits splits into `k` 5-bit values. -/
theorem unpack5_length : ∀ (k : Nat) (l : List Bool), l.length = 5 * k →
    (unpack5 l).length = k := by
  intro k
  induction k with
  | zero =>
    intro l hl
    have : l = [] := List.length_eq_zero.mp (by omega)
    subst this
    rfl
  | succ k ih =>
    intro l hl
    rcases l with _ | ⟨b0, _ | ⟨b1, _ | ⟨b2, _ | ⟨b3, _ | ⟨b4, rest⟩⟩⟩⟩⟩ <;>
      simp only [List.length_cons, List.length_nil] at hl <;> try omega
    show (bitsToNat [b0, b1, b2, b3, b4] :: unpack5 rest).length = _
    simp [ih rest (by omega)]

/-- The tag bits of a cons. -/
theorem tagBits_cons (c : Char) (cs : List Char) :
    tagBits (c :: cs) = natToBits 5 (tagCharValue c) ++ tagBits cs := by
  simp [tagBits]

/-- Eight tag characters pack into forty bits. -/
theorem tagBits_length (cs : List Char) : (tagBits cs).length = 5 * cs.length := by
  induction cs with
  | nil => rfl
  | cons c cs ih =>
    simp only [tagBits_cons, List.length_append, List.length_cons,
      natToBits_length, ih]
    omega

/-- Tag character values are 5-bit values. -/
theorem tagCharValue_lt (c : Char) : tagCharValue c < 32 :=
  Nat.mod_lt _ (by norm_num)

/-- Unpacking the packed tag bits recovers the character values. -/
theorem unpack5_tagBits (cs : List Char) (rest : List Bool) :
    unpack5 (tagBits cs ++ rest) = cs.map tagCharValue ++ unpack5 rest := by
  induction cs with
  | nil => simp [tagBits]
  | cons c cs ih =>
    rw [tagBits_cons, List.append_assoc,
      unpack5_append5 _ _ (natToBits_length 5 _), bitsToNat_natToBits, ih]
    simp [Nat.mod_eq_of_lt (tagCharValue_lt c)]

-- ===========================================================================
-- Tag character lemmas
-- ===========================================================================

/-- Alphabet characters are admissible tag characters. -/
theorem tagCharOk_alphaChar (v : Nat) : tagCharOk (alphaChar v) = true := by
  have hall : ∀ r : Fin 32, tagCharOk (alphabetList.getD r.val 'A') = true := by
    decide
  exact hall ⟨v % 32, Nat.mod_lt _ (by norm_num)⟩

/-- Unpacked characters are never the pad. -/
theorem alphaChar_ne_pad (v : Nat) : alphaChar v ≠ '_' := by
  have hall : ∀ r : Fin 32, alphabetList.getD r.val 'A' ≠ '_' := by decide
  exact hall ⟨v % 32, Nat.mod_lt _ (by norm_num)⟩

/-- Rendering the value of an admissible tag character collapses the pad to
the letter A and fixes every other character. -/
theorem alphaChar_tagCharValue (c : Char) (h : tagCharOk c = true) :
    alphaChar (tagCharValue c) = underscoreToA c := by
  have hall : ∀ x ∈ validTagChars, alphaChar (tagCharValue x) = underscoreToA x := by
    decide
  exact hall c (by simpa [tagCharOk] using h)

/-- Collapsing the pad preserves the 5-bit value. -/
theorem tagCharValue_underscoreToA (c : Char) :
    tagCharValue (underscoreToA c) = tagCharValue c := by
  unfold underscoreToA
  split
  · rename_i h; rw [h]; decide
  · rfl

/-- Collapsing the pad preserves admissibility. -/
theorem tagCharOk_underscoreToA (c : Char) (h : tagCharOk c = true) :
    tagCharOk (underscoreToA c) = true := by
  unfold underscoreToA
  split
  · decide
  · exact h

/-- The weighted checksum sum is invariant under collapsing pads. -/
theorem wsum_map_underscoreToA (cs : List Char) : ∀ i,
    wsum i (cs.map underscoreToA) = wsum i cs := by
  induction cs with
  | nil => intro i; rfl
  | cons c cs ih => intro i; simp [wsum, tagCharValue_underscoreToA, ih]

/-- The checksum character is invariant under collapsing pads. -/
theorem checksumChar_map_underscoreToA (cs : List Char) :
    checksumChar (cs.map underscoreToA) = checksumChar cs := by
  simp [checksumChar, wsum_map_underscoreToA]

/-- A list without pads is unchanged by stripping trailing pads. -/
theorem stripTrailingPad_no_pad (cs : List Char) (h : ∀ c ∈ cs, c ≠ '_') :
    stripTrailingPad cs = cs := by
  unfold stripTrailingPad
  have hdrop : List.dropWhile (fun c => c = '_') cs.reverse = cs.reverse := by
    cases hrev : cs.reverse with
    | nil => rfl
    | cons a t =>
      have ha : a ≠ '_' := by
        refine h a ?_
        rw [← List.mem_reverse, hrev]
        exact List.mem_cons_self a t
      simp [List.dropWhile_cons, ha]
  rw [hdrop, List.reverse_reverse]

/-- Stripping trailing pads removes an appended block of pads. -/
theorem stripTrailingPad_append_pad (cs : List Char) (k : Nat) :
    stripTrailingPad (cs ++ List.replicate k '_') = stripTrailingPad cs := by
  unfold stripTrailingPad
  rw [List.reverse_append, List.reverse_replicate]
  congr 1
  induction k with
  | zero => rfl
  | succ k ih =>
    rw [List.replicate_succ, List.cons_append, List.dropWhile_cons]
    simpa using ih

-- ===========================================================================
-- Key store lemmas and claim C7
-- ===========================================================================

/-- Characterization of the fallback search: either no later slot both
differs from the avoided index and holds a key and the search returns 0, or
the search returns the first (hence lowest) such slot. -/
theorem lowestFrom_correct (keys : List (Option (List Nat))) : ∀ avoid i,
    ((∀ off, off < keys.length →
        i + off = avoid ∨ slotHasKey keys off = false) ∧
      lowestFrom keys avoid i = 0) ∨
    (∃ off, off < keys.length ∧ i + off ≠ avoid ∧ slotHasKey keys off = true ∧
      lowestFrom keys avoid i = i + off ∧
      ∀ off2, off2 < off → i + off2 = avoid ∨ slotHasKey keys off2 = false) := by
  induction keys with
  | nil =>
    intro avoid i
    left
    exact ⟨fun off hoff => absurd hoff (by simp), rfl⟩
  | cons k rest ih =>
    intro avoid i
    by_cases hk : i ≠ avoid ∧ k.isSome
    · right
      refine ⟨0, by simp, by simpa using hk.1, ?_, ?_, fun off2 h2 => absurd h2 (by omega)⟩
      · simpa [slotHasKey] using hk.2
      · simp [lowestFrom, hk]
    · have hhead : i + 0 = avoid ∨ slotHasKey (k :: rest) 0 = false := by
        rcases Decidable.not_and_iff_or_not.mp hk with h | h
        · left; omega
        · right; simpa [slotHasKey] using Bool.not_eq_true _ |>.mp h
      have hstep : lowestFrom (k :: rest) avoid i = lowestFrom rest avoid (i + 1) := by
        simp [lowestFrom, hk]
      rcases ih avoid (i + 1) with ⟨hnone, hzero⟩ | ⟨off, holt, hne, hkey, hval, hmin⟩
      · left
        refine ⟨?_, by rw [hstep]; exact hzero⟩
        intro off hoff
        match off with
        | 0 => exact hhead
        | off + 1 =>
          have := hnone off (by simpa using hoff)
          rcases this with h | h
          · left; omega
          · right; simpa [slotHasKey, List.getD_cons_succ] using h
      · right
        refine ⟨off + 1, by simpa using holt, by omega, ?_, ?_, ?_⟩
        · simpa [slotHasKey, List.getD_cons_succ] using hkey
        · rw [hstep, hval]; omega
        · intro off2 h2
          match off2 with
          | 0 => exact hhead
          | off2 + 1 =>
            rcases hmin off2 (by omega) with h | h
            · left; omega
            · right; simpa [slotHasKey, List.getD_cons_succ] using h

/-- Clearing a slot leaves every other slot's key presence unchanged. -/
theorem slotHasKey_set_ne (keys : List (Option (List Nat))) (slot j : Nat)
    (h : j ≠ slot) : slotHasKey (keys.set slot none) j = slotHasKey keys j := by
  simp only [slotHasKey, List.getD_eq_getElem?_getD]
  rw [List.getElem?_set_ne (by omega)]

/-- The cleared slot holds no key. -/
theorem slotHasKey_set_self (keys : List (Option (List Nat))) (slot : Nat) :
    slotHasKey (keys.set slot none) slot = false := by
  simp only [slotHasKey, List.getD_eq_getElem?_getD]
  rw [List.getElem?_set]
  split
  · split <;> rfl
  · omega

/-- C7: deleting the currently-active slot of a 32-slot store makes the new
active slot the lowest index other than the deleted one whose slot still
has a key, or 0 when no other slot has a key, and `awm_key_delete_slot`
returns this post-delete active index. -/
theorem awm_delete_slot_fallback (st : KeyStore)
    (hlen : st.keys.length = 32) :
    ((awm_key_delete_slot st st.active).2 =
      (awm_key_delete_slot st st.active).1.active) ∧
    ((∃ j, j < 32 ∧ j ≠ st.active ∧ slotHasKey st.keys j = true) →
      ((awm_key_delete_slot st st.active).1.active < 32 ∧
        (awm_key_delete_slot st st.active).1.active ≠ st.active ∧
        slotHasKey st.keys ((awm_key_delete_slot st st.active).1.active) = true ∧
        ∀ j, j < (awm_key_delete_slot st st.active).1.active →
          j ≠ st.active → slotHasKey st.keys j = false)) ∧
    ((∀ j, j < 32 → j ≠ st.active → slotHasKey st.keys j = false) →
      (awm_key_delete_slot st st.active).1.active = 0) := by
  set keys := st.keys.set st.active none with hkeys
  have hklen : keys.length = 32 := by simp [hkeys, hlen]
  have hres : (awm_key_delete_slot st st.active).1.active =
      lowestFrom keys st.active 0 := by
    simp [awm_key_delete_slot]
  have htrans : ∀ j, j ≠ st.active → slotHasKey keys j = slotHasKey st.keys j :=
    fun j hj => slotHasKey_set_ne _ _ _ hj
  refine ⟨by simp [awm_key_delete_slot], ?_, ?_⟩
  · rintro ⟨j, hj32, hjne, hjkey⟩
    rcases lowestFrom_correct keys st.active 0 with ⟨hnone, _⟩ | ⟨off, holt, hne, hkey, hval, hmin⟩
    · exfalso
      rcases hnone j (by omega) with h | h
      · exact hjne (by omega)
      · rw [htrans j hjne] at h
        rw [hjkey] at h
        cases h
    · have hoffeq : (awm_key_delete_slot st st.active).1.active = off := by
        rw [hres, hval]; omega
      rw [hoffeq]
      refine ⟨by omega, by omega, ?_, ?_⟩
      · rw [← htrans off (by omega)]; exact hkey
      · intro j2 hj2 hj2ne
        rcases hmin j2 (by omega) with h | h
        · exact absurd (by omega : j2 = st.active) hj2ne
        · rw [← htrans j2 hj2ne]; exact h
  · intro hnone
    rcases lowestFrom_correct keys st.active 0 with ⟨_, hzero⟩ | ⟨off, holt, hne, hkey, hval, hmin⟩
    · rw [hres]; exact hzero
    · exfalso
      have : slotHasKey st.keys off = false := hnone off (by omega) (by omega)
      rw [← htrans off (by omega)] at this
      rw [hkey] at this
      cases this

/-- Witness for C7: a 32-slot store whose only key sits in the active slot
0 satisfies the theorem's hypotheses, and on deleting slot 0 the active
index falls back to 0. -/
theorem awm_delete_slot_fallback_witness :
    (⟨[some (List.replicate 32 1)] ++ List.replicate 31 none, 0⟩ :
        KeyStore).keys.length = 32 ∧
    (awm_key_delete_slot
      ⟨[some (List.replicate 32 1)] ++ List.replicate 31 none, 0⟩
      (⟨[some (List.replicate 32 1)] ++ List.replicate 31 none, 0⟩ :
        KeyStore).active).1.active = 0 :=
  ⟨by decide,
    (awm_delete_slot_fallback
      ⟨[some (List.replicate 32 1)] ++ List.replicate 31 none, 0⟩
      (by decide)).2.2 (by decide)⟩

-- ===========================================================================
-- Tag construction lemmas and claims C4, C5, C9
-- ===========================================================================

/-- A string built from seven admissible characters followed by their
checksum passes `tag_verify`. -/
theorem awm_tag_verify_build (cs7 : List Char) (h7 : cs7.length = 7)
    (hok : cs7.all tagCharOk = true) :
    awm_tag_verify (String.mk (cs7 ++ [checksumChar cs7])) = true := by
  unfold awm_tag_verify
  have htake : (cs7 ++ [checksumChar cs7]).take 7 = cs7 := List.take_left' h7
  have hgetD : (cs7 ++ [checksumChar cs7]).getD 7 'A' = checksumChar cs7 := by
    rw [List.getD_append_right _ _ _ _ (by omega), h7]
    rfl
  have hck : tagCharOk (checksumChar cs7) = true := tagCharOk_alphaChar _
  simp [htake, hgetD, h7, List.all_append, hok, hck]

/-- The identity of a freshly built tag is its seven-character body with
the trailing pads removed. -/
theorem awm_tag_identity_build (cs7 : List Char) (h7 : cs7.length = 7)
    (hok : cs7.all tagCharOk = true) :
    awm_tag_identity (String.mk (cs7 ++ [checksumChar cs7])) =
      .ok (String.mk (stripTrailingPad cs7)) := by
  unfold awm_tag_identity
  rw [awm_tag_verify_build cs7 h7 hok]
  have htake : (cs7 ++ [checksumChar cs7]).take 7 = cs7 := List.take_left' h7
  simp [htake]

/-- C4 (amended): for every identity whose normalized form is 1-7
admissible characters, `tag_new` succeeds, the produced tag passes
`tag_verify`, and `tag_identity` returns the normalized form with its
trailing underscores stripped (equal to the normalized form exactly when
that form does not end in an underscore). -/
theorem awm_tag_new_roundtrip (s : String)
    (h1 : 1 ≤ (normalizeIdentity s).toList.length)
    (h2 : (normalizeIdentity s).toList.length ≤ 7)
    (h3 : (normalizeIdentity s).toList.all tagCharOk = true) :
    ∃ tag, awm_tag_new s = .ok tag ∧ awm_tag_verify tag = true ∧
      awm_tag_identity tag =
        .ok (String.mk (stripTrailingPad (normalizeIdentity s).toList)) := by
  have hpadlen : ((normalizeIdentity s).toList ++
      List.replicate (7 - (normalizeIdentity s).toList.length) '_').length = 7 := by
    simp only [List.length_append, List.length_replicate]
    omega
  have hpadok : ((normalizeIdentity s).toList ++
      List.replicate (7 - (normalizeIdentity s).toList.length) '_').all
        tagCharOk = true := by
    rw [List.all_append, h3]
    simp only [Bool.true_and]
    rw [List.all_eq_true]
    intro c hc
    rw [List.eq_of_mem_replicate hc]
    decide
  refine ⟨_, ?_, awm_tag_verify_build _ hpadlen hpadok, ?_⟩
  · unfold awm_tag_new
    rw [if_neg]
    push_neg
    exact ⟨by omega, by omega, h3⟩
  · rw [awm_tag_identity_build _ hpadlen hpadok,
      stripTrailingPad_append_pad]

/-- Witness for C4 at the identity SAKUZY: the hypotheses hold and the tag
round-trips. -/
theorem awm_tag_new_roundtrip_witness :
    (1 ≤ (normalizeIdentity "SAKUZY").toList.length ∧
      (normalizeIdentity "SAKUZY").toList.length ≤ 7 ∧
      (normalizeIdentity "SAKUZY").toList.all tagCharOk = true) ∧
    ∃ tag, awm_tag_new "SAKUZY" = .ok tag ∧ awm_tag_verify tag = true ∧
      awm_tag_identity tag =
        .ok (String.mk (stripTrailingPad (normalizeIdentity "SAKUZY").toList)) :=
  ⟨⟨by decide, by decide, by decide⟩,
    awm_tag_new_roundtrip "SAKUZY" (by decide) (by decide) (by decide)⟩

/-- Counterexample to C4 as stated: the identity A- normalizes to A_, whose
characters match the claim's class, yet `tag_identity` of its tag returns A
because the trailing underscore is stripped alongside the padding. -/
theorem awm_tag_new_roundtrip_counterexample :
    normalizeIdentity "A-" = "A_" ∧
    awm_tag_new "A-" = .ok "A______A" ∧
    awm_tag_verify "A______A" = true ∧
    awm_tag_identity "A______A" = .ok "A" ∧
    ("A" : String) ≠ "A_" := by
  refine ⟨by decide, by decide, by decide, by decide, by decide⟩

/-- C5 (amended): the checksum character of every valid tag is
`alphabet[sum mod 32]` with `sum = Σ (i+1) * value_i` over the first seven
characters; in particular `tag_new` maps SAKUZY to SAKUZY_N (the formula
fixes N, not the X of the header's illustrative example) and `tag_identity`
maps SAKUZY_N back to SAKUZY. -/
theorem awm_checksum_formula :
    awm_tag_new "SAKUZY" = .ok "SAKUZY_N" ∧
    awm_tag_identity "SAKUZY_N" = .ok "SAKUZY" ∧
    ∀ t : String, awm_tag_verify t = true →
      t.toList.getD 7 'A' = alphaChar (wsum 0 (t.toList.take 7)) := by
  refine ⟨by decide, by decide, ?_⟩
  intro t h
  unfold awm_tag_verify at h
  simp only [Bool.and_eq_true, decide_eq_true_eq] at h
  exact h.2

/-- Witness for C5 at the tag SAKUZY_N. -/
theorem awm_checksum_formula_witness :
    awm_tag_verify "SAKUZY_N" = true ∧
    ("SAKUZY_N" : String).toList.getD 7 'A' =
      alphaChar (wsum 0 (("SAKUZY_N" : String).toList.take 7)) :=
  ⟨by decide, awm_checksum_formula.2.2 "SAKUZY_N" (by decide)⟩

/-- Counterexample to C5 as stated: the section 4.1 formula makes the
checksum of SAKUZY_ the letter N, so `tag_new` does not return SAKUZY_X. -/
theorem awm_checksum_formula_counterexample :
    awm_tag_new "SAKUZY" = .ok "SAKUZY_N" ∧
    awm_tag_new "SAKUZY" ≠ .ok "SAKUZY_X" := by
  refine ⟨by decide, by decide⟩

/-- The SHA-256 digest is 32 bytes long. -/
theorem sha256_length (m : List Nat) : (sha256 m).length = 32 := by
  simp [sha256, stateBytes, be4]

/-- C9: `tag_suggest` is deterministic, its result is the Base32 encoding
of the first 5 bytes of SHA-256 of the UTF-8 username with the eighth
character overwritten by the checksum of the first seven, the result passes
`tag_verify`, and `tag_identity` of the result returns its leading seven
characters. -/
theorem awm_tag_suggest_props (u : String) :
    (∀ v, u = v → awm_tag_suggest u = awm_tag_suggest v) ∧
    awm_tag_suggest u = String.mk
      ((base32Encode5 ((sha256 (utf8Encode u.toList)).take 5)).take 7 ++
        [checksumChar
          ((base32Encode5 ((sha256 (utf8Encode u.toList)).take 5)).take 7)]) ∧
    awm_tag_verify (awm_tag_suggest u) = true ∧
    awm_tag_identity (awm_tag_suggest u) =
      .ok (String.mk ((awm_tag_suggest u).toList.take 7)) := by
  have hchars : (base32Encode5 ((sha256 (utf8Encode u.toList)).take 5)).length = 8 := by
    unfold base32Encode5
    rw [List.length_map, unpack5_length 8]
    rw [bytesToBits_length, List.length_take, sha256_length]
    omega
  have h7 : ((base32Encode5 ((sha256 (utf8Encode u.toList)).take 5)).take 7).length = 7 := by
    rw [List.length_take, hchars]
    omega
  have hok : ((base32Encode5 ((sha256 (utf8Encode u.toList)).take 5)).take 7).all
      tagCharOk = true := by
    rw [List.all_eq_true]
    intro c hc
    have := List.mem_of_mem_take hc
    unfold base32Encode5 at this
    obtain ⟨v, _, rfl⟩ := List.mem_map.mp this
    exact tagCharOk_alphaChar v
  have hnopad : ∀ c ∈ (base32Encode5 ((sha256 (utf8Encode u.toList)).take 5)).take 7,
      c ≠ '_' := by
    intro c hc
    have := List.mem_of_mem_take hc
    unfold base32Encode5 at this
    obtain ⟨v, _, rfl⟩ := List.mem_map.mp this
    exact alphaChar_ne_pad v
  have heq : awm_tag_suggest u = String.mk
      ((base32Encode5 ((sha256 (utf8Encode u.toList)).take 5)).take 7 ++
        [checksumChar
          ((base32Encode5 ((sha256 (utf8Encode u.toList)).take 5)).take 7)]) := rfl
  refine ⟨fun v hv => by rw [hv], heq, ?_, ?_⟩
  · rw [heq]
    exact awm_tag_verify_build _ h7 hok
  · rw [heq, awm_tag_identity_build _ h7 hok,
      stripTrailingPad_no_pad _ hnopad]
    have htake : (String.mk
        ((base32Encode5 ((sha256 (utf8Encode u.toList)).take 5)).take 7 ++
          [checksumChar
            ((base32Encode5 ((sha256 (utf8Encode u.toList)).take 5)).take 7)])).toList.take 7 =
        (base32Encode5 ((sha256 (utf8Encode u.toList)).take 5)).take 7 :=
      List.take_left' h7
    rw [htake]

/-- Witness for C9 at the username alice@example.com: determinism
instantiated at the equal input, the suggested tag 76GZQGPO, its
verification and its identity. -/
theorem awm_tag_suggest_props_witness :
    awm_tag_suggest "alice@example.com" = awm_tag_suggest "alice@example.com" ∧
    awm_tag_suggest "alice@example.com" = "76GZQGPO" ∧
    awm_tag_verify (awm_tag_suggest "alice@example.com") = true ∧
    awm_tag_identity (awm_tag_suggest "alice@example.com") =
      .ok (String.mk ((awm_tag_suggest "alice@example.com").toList.take 7)) :=
  ⟨(awm_tag_suggest_props "alice@example.com").1 "alice@example.com" rfl,
    by decide,
    (awm_tag_suggest_props "alice@example.com").2.2.1,
    (awm_tag_suggest_props "alice@example.com").2.2.2⟩

-- ===========================================================================
-- Round-trip helper lemmas
-- ===========================================================================

/-- The three components of a successful tag verification. -/
theorem awm_tag_verify_parts (t : String) (h : awm_tag_verify t = true) :
    t.toList.length = 8 ∧ t.toList.all tagCharOk = true ∧
    t.toList.getD 7 'A' = checksumChar (t.toList.take 7) := by
  unfold awm_tag_verify at h
  simp only [Bool.and_eq_true, decide_eq_true_eq] at h
  exact ⟨h.1.1, h.1.2, h.2⟩

/-- Explicit form of a list of length eight. -/
theorem list_eight {α : Type} (l : List α) (hflat : l.length = 8) :
    ∃ e0 e1 e2 e3 e4 e5 e6 e7, l = [e0, e1, e2, e3, e4, e5, e6, e7] := by
  rcases l with _ | ⟨e0, _ | ⟨e1, _ | ⟨e2, _ | ⟨e3, _ | ⟨e4, _ | ⟨e5, _ |
    ⟨e6, _ | ⟨e7, tail7⟩⟩⟩⟩⟩⟩⟩⟩ <;>
    simp only [List.length_cons, List.length_nil] at hflat <;> try omega
  have htail : tail7 = [] := List.length_eq_zero.mp (by omega)
  subst htail
  exact ⟨e0, e1, e2, e3, e4, e5, e6, e7, rfl⟩

/-- First three elements of a list of length five. -/
theorem list_three_of_five {α : Type} (l : List α) (h : l.length = 5) :
    ∃ a b c rest, l = a :: b :: c :: rest := by
  rcases l with _ | ⟨a, _ | ⟨b, _ | ⟨c, rest⟩⟩⟩ <;>
    simp only [List.length_cons, List.length_nil] at h <;> try omega
  exact ⟨a, b, c, rest, rfl⟩

/-- Collapsing the pads of a valid tag leaves a valid tag: values and hence
the checksum are unchanged, and the checksum character itself is never a
pad. -/
theorem awm_tag_verify_map (t : String) (h : awm_tag_verify t = true) :
    awm_tag_verify (String.mk (t.toList.map underscoreToA)) = true := by
  obtain ⟨hlen, hall, hck⟩ := awm_tag_verify_parts t h
  obtain ⟨a0, a1, a2, a3, a4, a5, a6, a7, hform⟩ := list_eight t.toList hlen
  rw [hform] at hall hck ⊢
  simp only [List.all_cons, Bool.and_eq_true] at hall
  simp only [List.take, List.getD_cons_succ, List.getD_cons_zero] at hck
  have ha7 : underscoreToA a7 = a7 := by
    unfold underscoreToA
    rw [if_neg]
    rw [hck]
    exact alphaChar_ne_pad _
  have hmap7 : [underscoreToA a0, underscoreToA a1, underscoreToA a2,
      underscoreToA a3, underscoreToA a4, underscoreToA a5, underscoreToA a6] =
      [a0, a1, a2, a3, a4, a5, a6].map underscoreToA := rfl
  unfold awm_tag_verify
  simp only [List.map, List.all_cons, List.take, List.getD_cons_succ,
    List.getD_cons_zero, Bool.and_eq_true, decide_eq_true_eq]
  refine ⟨⟨rfl, ?_⟩, ?_⟩
  · simp [tagCharOk_underscoreToA _ hall.1,
      tagCharOk_underscoreToA _ hall.2.1,
      tagCharOk_underscoreToA _ hall.2.2.1,
      tagCharOk_underscoreToA _ hall.2.2.2.1,
      tagCharOk_underscoreToA _ hall.2.2.2.2.1,
      tagCharOk_underscoreToA _ hall.2.2.2.2.2.1,
      tagCharOk_underscoreToA _ hall.2.2.2.2.2.2.1,
      tagCharOk_underscoreToA _ hall.2.2.2.2.2.2.2.1]
  · rw [ha7, hmap7, checksumChar_map_underscoreToA]
    exact hck

/-- Rendering the values of admissible characters collapses the pads. -/
theorem map_alphaChar_tagCharValue (cs : List Char) (h : cs.all tagCharOk = true) :
    (cs.map tagCharValue).map alphaChar = cs.map underscoreToA := by
  induction cs with
  | nil => rfl
  | cons c cs ih =>
    simp only [List.all_cons, Bool.and_eq_true] at h
    simp only [List.map]
    rw [alphaChar_tagCharValue c h.1, ih h.2]

/-- A pad-free character list is unchanged by collapsing pads. -/
theorem map_underscoreToA_id (cs : List Char) (h : '_' ∉ cs) :
    cs.map underscoreToA = cs := by
  induction cs with
  | nil => rfl
  | cons c cs ih =>
    simp only [List.mem_cons, not_or] at h
    simp only [List.map]
    rw [ih h.2]
    unfold underscoreToA
    rw [if_neg (fun hc => h.1 hc.symm)]

/-- Unpacking a bare packed tag yields its character values. -/
theorem unpack5_tagBits_nil (cs : List Char) :
    unpack5 (tagBits cs) = cs.map tagCharValue := by
  have h0 : unpack5 ([] : List Bool) = [] := rfl
  have := unpack5_tagBits cs []
  simpa [h0] using this

/-- Reading back the big-endian four-byte rendering of a 32-bit value. -/
theorem bytesToNatBE_be4 (ts : Nat) (h : ts < 2 ^ 32) :
    bytesToNatBE (be4 ts) = ts := by
  simp only [bytesToNatBE, be4, List.foldl_cons, List.foldl_nil]
  omega

/-- The HMAC digest is 32 bytes long. -/
theorem hmacSha256_length (key msg : List Nat) :
    (hmacSha256 key msg).length = 32 := by
  unfold hmacSha256
  exact sha256_length _

/-- A v2 first byte starts with the version bits 00010 and is never the v1
dispatch byte 1. -/
theorem v2_head_byte_ne_one (x y z : Bool) :
    bitsToNat [false, false, false, true, false, x, y, z] ≠ 1 := by
  cases x <;> cases y <;> cases z <;> decide

/-- Decoding a freshly encoded v1 message succeeds and returns version 1,
the timestamp, slot 0, and the tag with its pads collapsed to the letter
A. -/
theorem decode_encodeV1 (tag : String) (key : List Nat) (ts : Nat)
    (hts : ts < 2 ^ 32) (hver : awm_tag_verify tag = true) :
    awm_message_decode (awmEncodeV1 tag key ts) key = .ok
      ⟨1, ts * 60, ts, 0, String.mk (tag.toList.map underscoreToA),
        String.mk (stripTrailingPad ((tag.toList.map underscoreToA).take 7))⟩ := by
  obtain ⟨hlen, hall, -⟩ := awm_tag_verify_parts tag hver
  have hlen' : tag.length = 8 := by simpa using hlen
  have hrt := bitsToBytes_roundtrip 5 (tagBits tag.toList)
    (by simp [tagBits_length, hlen'])
  set tb := bitsToBytes (tagBits tag.toList) with htb
  set mac6 := (hmacSha256 key ((1 :: be4 ts) ++ tb)).take 6 with hmac6
  have hM2 : awmEncodeV1 tag key ts = ((1 :: be4 ts) ++ tb) ++ mac6 := by
    rw [hmac6, htb]
    rfl
  have h5len : (1 :: be4 ts).length = 5 := by simp [be4]
  have htblen : tb.length = 5 := hrt.2
  have hm6len : mac6.length = 6 := by simp [hmac6, hmacSha256_length]
  have henc1 : awmEncodeV1 tag key ts = (1 :: be4 ts) ++ (tb ++ mac6) := by
    rw [hM2, List.append_assoc]
  have hM3 : awmEncodeV1 tag key ts = 1 :: (be4 ts ++ (tb ++ mac6)) := by
    rw [henc1]
    rfl
  have hpaylen : ((1 :: be4 ts) ++ tb).length = 10 := by simp [be4, htblen]
  have hlen16 : (awmEncodeV1 tag key ts).length = 16 := by
    rw [hM2]
    simp [be4, htblen, hm6len]
  have hhead : (awmEncodeV1 tag key ts).headD 0 = 1 := by rw [hM3]; rfl
  have hdrop5 : ((awmEncodeV1 tag key ts).drop 5).take 5 = tb := by
    rw [henc1, List.drop_left' h5len]
    exact List.take_left' htblen
  have hdrop1 : ((awmEncodeV1 tag key ts).drop 1).take 4 = be4 ts := by
    rw [hM3]
    show (be4 ts ++ (tb ++ mac6)).take 4 = be4 ts
    exact List.take_left' (by simp [be4])
  have hdrop10 : (awmEncodeV1 tag key ts).drop 10 = mac6 := by
    rw [hM2]
    exact List.drop_left' hpaylen
  have htake10 : (awmEncodeV1 tag key ts).take 10 = (1 :: be4 ts) ++ tb := by
    rw [hM2]
    exact List.take_left' hpaylen
  have htagstr : unpackedTag (awmEncodeV1 tag key ts) =
      String.mk (tag.toList.map underscoreToA) := by
    unfold unpackedTag
    rw [if_pos hhead, hdrop5, hrt.1, unpack5_tagBits_nil,
      map_alphaChar_tagCharValue _ hall]
  have hverify2 : awm_tag_verify (unpackedTag (awmEncodeV1 tag key ts)) = true := by
    rw [htagstr]
    exact awm_tag_verify_map tag hver
  have hmacm : macMatches (awmEncodeV1 tag key ts) key = true := by
    unfold macMatches
    rw [if_pos hhead, hdrop10, htake10]
    simp [hmac6]
  have hts' : bytesToNatBE (((awmEncodeV1 tag key ts).drop 1).take 4) = ts := by
    rw [hdrop1]
    exact bytesToNatBE_be4 ts hts
  unfold awm_message_decode
  rw [if_neg (by simp [hlen16]), if_neg (by simp [hverify2]),
    if_neg (by simp [hmacm])]
  simp only [decodedRecord]
  rw [if_pos hhead, htagstr, hts']
  rfl

/-- The v2 wire message is the 90 payload bits followed by the 38 MAC bits,
packed into 16 bytes, and streaming those bytes out recovers the bits. -/
theorem encodeV2_parts (tag : String) (key : List Nat) (slot ts : Nat)
    (hlen : tag.toList.length = 8) :
    bytesToBits (awmEncodeV2 tag key slot ts) =
      v2PayloadBits tag slot ts ++
        (bytesToBits (hmacSha256 key
          (v2MacInput (v2PayloadBits tag slot ts)))).take 38 ∧
    (awmEncodeV2 tag key slot ts).length = 16 := by
  have hlen' : tag.length = 8 := by simpa using hlen
  have hpay : (v2PayloadBits tag slot ts).length = 90 := by
    simp [v2PayloadBits, natToBits_length, tagBits_length, hlen']
  have hmb : ((bytesToBits (hmacSha256 key
      (v2MacInput (v2PayloadBits tag slot ts)))).take 38).length = 38 := by
    simp [bytesToBits_length, hmacSha256_length]
  have h128 : (v2PayloadBits tag slot ts ++
      (bytesToBits (hmacSha256 key
        (v2MacInput (v2PayloadBits tag slot ts)))).take 38).length = 8 * 16 := by
    rw [List.length_append, hpay, hmb]
  have hrt := bitsToBytes_roundtrip 16 _ h128
  have hdef : awmEncodeV2 tag key slot ts = bitsToBytes
      (v2PayloadBits tag slot ts ++
        (bytesToBits (hmacSha256 key
          (v2MacInput (v2PayloadBits tag slot ts)))).take 38) := rfl
  rw [hdef]
  exact ⟨hrt.1, hrt.2⟩

/-- Decoding a freshly encoded v2 message succeeds and returns version 2,
the slot, the timestamp, and the tag with its pads collapsed to the letter
A. -/
theorem decode_encodeV2 (tag : String) (key : List Nat) (slot ts : Nat)
    (hts : ts < 2 ^ 32) (hslot : slot < 32) (hver : awm_tag_verify tag = true) :
    awm_message_decode (awmEncodeV2 tag key slot ts) key = .ok
      ⟨2, ts * 60, ts, slot, String.mk (tag.toList.map underscoreToA),
        String.mk (stripTrailingPad ((tag.toList.map underscoreToA).take 7))⟩ := by
  obtain ⟨hlen, hall, -⟩ := awm_tag_verify_parts tag hver
  have hlen' : tag.length = 8 := by simpa using hlen
  obtain ⟨hbits, hlen16⟩ := encodeV2_parts tag key slot ts hlen
  set macB := (bytesToBits (hmacSha256 key
    (v2MacInput (v2PayloadBits tag slot ts)))).take 38 with hmacB
  set M := awmEncodeV2 tag key slot ts with hMdef
  have hpaylen : (v2PayloadBits tag slot ts).length = 90 := by
    simp [v2PayloadBits, natToBits_length, tagBits_length, hlen']
  have hsplit5 : bytesToBits M = natToBits 5 2 ++ (natToBits 5 slot ++
      (natToBits 32 ts ++ (tagBits tag.toList ++
        (List.replicate 8 false ++ macB)))) := by
    rw [hbits]
    simp [v2PayloadBits, List.append_assoc]
  have htake5 : (bytesToBits M).take 5 = natToBits 5 2 := by
    rw [hsplit5]
    exact List.take_left' (natToBits_length 5 2)
  have hdrop5 : ((bytesToBits M).drop 5).take 5 = natToBits 5 slot := by
    rw [hsplit5, List.drop_left' (natToBits_length 5 2)]
    exact List.take_left' (natToBits_length 5 slot)
  have hsplit10 : bytesToBits M = (natToBits 5 2 ++ natToBits 5 slot) ++
      (natToBits 32 ts ++ (tagBits tag.toList ++
        (List.replicate 8 false ++ macB))) := by
    rw [hsplit5]
    simp [List.append_assoc]
  have hdrop10 : ((bytesToBits M).drop 10).take 32 = natToBits 32 ts := by
    rw [hsplit10, List.drop_left' (by simp [natToBits_length])]
    exact List.take_left' (natToBits_length 32 ts)
  have hsplit42 : bytesToBits M = ((natToBits 5 2 ++ natToBits 5 slot) ++
      natToBits 32 ts) ++ (tagBits tag.toList ++
        (List.replicate 8 false ++ macB)) := by
    rw [hsplit5]
    simp [List.append_assoc]
  have hdrop42 : ((bytesToBits M).drop 42).take 40 = tagBits tag.toList := by
    rw [hsplit42, List.drop_left' (by simp [natToBits_length])]
    exact List.take_left' (by simp [tagBits_length, hlen'])
  have htake90 : (bytesToBits M).take 90 = v2PayloadBits tag slot ts := by
    rw [hbits]
    exact List.take_left' hpaylen
  have hdrop90 : (bytesToBits M).drop 90 = macB := by
    rw [hbits]
    exact List.drop_left' hpaylen
  obtain ⟨x, y, z, rest5, hslotbits⟩ :=
    list_three_of_five (natToBits 5 slot) (natToBits_length 5 slot)
  have hconsP : v2PayloadBits tag slot ts ++ macB =
      false :: false :: false :: true :: false :: x :: y :: z ::
        (rest5 ++ (natToBits 32 ts ++ (tagBits tag.toList ++
          (List.replicate 8 false ++ macB)))) := by
    have h2bits : natToBits 5 2 = [false, false, false, true, false] := by decide
    calc v2PayloadBits tag slot ts ++ macB
        = natToBits 5 2 ++ (natToBits 5 slot ++ (natToBits 32 ts ++
            (tagBits tag.toList ++ (List.replicate 8 false ++ macB)))) := by
          simp [v2PayloadBits, List.append_assoc]
      _ = _ := by rw [h2bits, hslotbits]; rfl
  have hhead : M.headD 0 = bitsToNat [false, false, false, true, false, x, y, z] := by
    have hd : M = bitsToBytes (v2PayloadBits tag slot ts ++ macB) := by
      rw [hMdef, hmacB]
      rfl
    rw [hd, hconsP]
    rfl
  have hne1 : ¬ M.headD 0 = 1 := by
    rw [hhead]
    exact v2_head_byte_ne_one x y z
  have htagstr : unpackedTag M = String.mk (tag.toList.map underscoreToA) := by
    unfold unpackedTag
    rw [if_neg hne1, hdrop42, unpack5_tagBits_nil,
      map_alphaChar_tagCharValue _ hall]
  have hverify2 : awm_tag_verify (unpackedTag M) = true := by
    rw [htagstr]
    exact awm_tag_verify_map tag hver
  have hmacm : macMatches M key = true := by
    unfold macMatches
    rw [if_neg hne1, hdrop90, htake90]
    simp [hmacB, v2MacInput]
  have hver2 : bitsToNat ((bytesToBits M).take 5) = 2 := by
    rw [htake5]
    decide
  have hslot2 : bitsToNat (((bytesToBits M).drop 5).take 5) = slot := by
    rw [hdrop5, bitsToNat_natToBits]
    exact Nat.mod_eq_of_lt (by omega)
  have hts2 : bitsToNat (((bytesToBits M).drop 10).take 32) = ts := by
    rw [hdrop10, bitsToNat_natToBits]
    exact Nat.mod_eq_of_lt (by omega)
  unfold awm_message_decode
  rw [if_neg (by simp [hlen16]), if_neg (by simp [hverify2]),
    if_neg (by simp [hmacm])]
  simp only [decodedRecord]
  rw [if_neg hne1, htagstr, hver2, hslot2, hts2]
  rfl

/-- C1 (amended): decoding a message freshly encoded with the same key
succeeds and returns the same version, the same timestamp_minutes and (for
v2) the same key_slot, and a tag equal to the original with every
underscore pad collapsed to the letter A; the tag is returned verbatim
exactly when it contains no underscore.  The 33 admissible tag symbols
share 32 five-bit codes, so the pad and the letter A collide on the wire
and no decoder can return every tag verbatim. -/
theorem awm_message_roundtrip (version : Nat) (tag : String) (key : List Nat)
    (slot ts : Nat) (msg : List Nat) (hts : ts < 2 ^ 32)
    (henc : awm_message_encode_full version tag key slot ts = .ok msg) :
    awm_message_decode msg key = .ok
      ⟨version, ts * 60, ts, slot,
        String.mk (tag.toList.map underscoreToA),
        String.mk (stripTrailingPad ((tag.toList.map underscoreToA).take 7))⟩ ∧
    ('_' ∉ tag.toList → String.mk (tag.toList.map underscoreToA) = tag) := by
  have hmk : '_' ∉ tag.toList → String.mk (tag.toList.map underscoreToA) = tag := by
    intro hno
    rw [map_underscoreToA_id _ hno]
    rfl
  refine ⟨?_, hmk⟩
  unfold awm_message_encode_full at henc
  split_ifs at henc with h1 h2 h3 h4 h5
  all_goals simp at henc
  · subst henc
    have hv : awm_tag_verify tag = true := by simpa using h1
    have hs0 : slot = 0 := by omega
    subst hs0
    subst h2
    exact decode_encodeV1 tag key ts hts hv
  · subst henc
    have hv : awm_tag_verify tag = true := by simpa using h1
    have hs : slot < 32 := by omega
    subst h4
    exact decode_encodeV2 tag key slot ts hts hs hv

/-- Witness for C1: the pad-free tag SAKUZYAN encoded as v2 in slot 3
decodes to the identical record. -/
theorem awm_message_roundtrip_witness :
    (28000000 : Nat) < 2 ^ 32 ∧
    awm_message_decode (awmEncodeV2 "SAKUZYAN" [] 3 28000000) [] = .ok
      ⟨2, 28000000 * 60, 28000000, 3,
        String.mk (("SAKUZYAN" : String).toList.map underscoreToA),
        String.mk (stripTrailingPad
          ((("SAKUZYAN" : String).toList.map underscoreToA).take 7))⟩ ∧
    String.mk (("SAKUZYAN" : String).toList.map underscoreToA) = "SAKUZYAN" :=
  ⟨by norm_num,
    (awm_message_roundtrip 2 "SAKUZYAN" [] 3 28000000
      (awmEncodeV2 "SAKUZYAN" [] 3 28000000) (by norm_num) rfl).1,
    (awm_message_roundtrip 2 "SAKUZYAN" [] 3 28000000
      (awmEncodeV2 "SAKUZYAN" [] 3 28000000) (by norm_num) rfl).2 (by decide)⟩

/-- Counterexample to C1 as stated: the valid tag SAKUZY_N contains a pad,
and decoding its fresh v2 encoding returns the tag SAKUZYAN instead of
SAKUZY_N, because the pad and the letter A share the wire value 0. -/
theorem awm_message_roundtrip_counterexample :
    awm_tag_verify "SAKUZY_N" = true ∧
    (awm_message_encode_full 2 "SAKUZY_N" [] 3 28000000).bind
      (fun m => (awm_message_decode m []).map AWMResult.tag) =
      .ok "SAKUZYAN" ∧
    ("SAKUZYAN" : String) ≠ "SAKUZY_N" := by
  refine ⟨by decide, by decide, by decide⟩

/-- C3 (amended): the 16-byte v2 output is the high-order-first
concatenation of 5 version bits, 5 slot bits, 32 timestamp bits, 40 tag
bits, 8 zero bits completing the 90-bit payload, and the leading 38 bits of
HMAC-SHA256 over the first 90 bits of the message right-padded with zeros
to 12 bytes; the claim as stated omits the 8 zero bits, without which the
listed fields cover only 120 of the 128 bits. -/
theorem awm_v2_layout (tag : String) (key : List Nat) (slot ts : Nat)
    (msg : List Nat)
    (henc : awm_message_encode_full 2 tag key slot ts = .ok msg) :
    bytesToBits msg =
      natToBits 5 2 ++ natToBits 5 slot ++ natToBits 32 ts ++
        tagBits tag.toList ++ List.replicate 8 false ++
        (bytesToBits (hmacSha256 key
          (bitsToBytes ((bytesToBits msg).take 90 ++
            List.replicate 6 false)))).take 38 := by
  have hv : awm_tag_verify tag = true := by
    by_contra hfalse
    have hb : awm_tag_verify tag = false := by simpa using hfalse
    unfold awm_message_encode_full at henc
    rw [if_pos hb] at henc
    exact absurd henc (by simp)
  have hmsg : msg = awmEncodeV2 tag key slot ts := by
    unfold awm_message_encode_full at henc
    rw [if_neg (by simp [hv]), if_neg (by norm_num), if_pos rfl] at henc
    by_cases hge : 32 ≤ slot
    · rw [if_pos hge] at henc
      exact absurd henc (by simp)
    · rw [if_neg hge] at henc
      simpa using henc.symm
  obtain ⟨hlen, -, -⟩ := awm_tag_verify_parts tag hv
  have hlen' : tag.length = 8 := by simpa using hlen
  obtain ⟨hbits, -⟩ := encodeV2_parts tag key slot ts hlen
  have hpaylen : (v2PayloadBits tag slot ts).length = 90 := by
    simp [v2PayloadBits, natToBits_length, tagBits_length, hlen']
  subst hmsg
  have htake90 : (bytesToBits (awmEncodeV2 tag key slot ts)).take 90 =
      v2PayloadBits tag slot ts := by
    rw [hbits]
    exact List.take_left' hpaylen
  rw [htake90, hbits]
  simp [v2PayloadBits, v2MacInput, List.append_assoc]

/-- Witness for C1 and C3's shared encode hypothesis, instantiating the v2
layout at the tag SAKUZYAN, slot 3 and timestamp 28000000. -/
theorem awm_v2_layout_witness :
    bytesToBits (awmEncodeV2 "SAKUZYAN" [] 3 28000000) =
      natToBits 5 2 ++ natToBits 5 3 ++ natToBits 32 28000000 ++
        tagBits ("SAKUZYAN" : String).toList ++ List.replicate 8 false ++
        (bytesToBits (hmacSha256 []
          (bitsToBytes ((bytesToBits
            (awmEncodeV2 "SAKUZYAN" [] 3 28000000)).take 90 ++
            List.replicate 6 false)))).take 38 :=
  awm_v2_layout "SAKUZYAN" [] 3 28000000
    (awmEncodeV2 "SAKUZYAN" [] 3 28000000) rfl

/-- Counterexample to C3 as stated: the concatenation the claim lists,
with no zero bits between the tag field and the MAC, is 120 bits and never
equals the 128-bit message. -/
theorem awm_v2_layout_counterexample :
    awm_message_encode_full 2 "SAKUZYAN" [] 3 28000000 =
      .ok (awmEncodeV2 "SAKUZYAN" [] 3 28000000) ∧
    bytesToBits (awmEncodeV2 "SAKUZYAN" [] 3 28000000) ≠
      claimedV2Bits "SAKUZYAN" [] 3 28000000 := by
  refine ⟨rfl, by decide⟩
